import Mathlib

/-!
Verification of the `lazy` package (perdata/lazy, array.go): a lazy
persistent sequence supporting deferred `Slice` and `Splice`, with
`ForEach` resolving all pending operations into leaf segments.

Shallow embedding notes:
* Go's `Array` struct becomes the inductive `Lazy.Array`; its `Value`
  field of type `interface{}` becomes `Lazy.Val` (nil interface, leaf
  `Slicer` payload, or nested `Array`); the `*Array` replacement pointer
  becomes `Lazy.Repl` (nil or a node).  The three types are mutually
  inductive because Go's `interface{}` can hold an `Array`.
* Go `int` is modelled as `Int` (the bounds checks compare possibly
  negative values; no arithmetic here approaches overflow).
* `Slice`/`Splice` panic on invalid ranges; the embedding returns
  `Option` with `none` for the panic.
* The leaf `Slicer` capability is instantiated, as in the repository's
  tests, by a sequence whose `Slice(offset, count)` returns the sub-range
  `[offset, offset+count)`; payloads are modelled as `List α`.
* `ForEach` takes a callback in Go; the embedding returns the list of
  `(value, count)` arguments the callback would receive, in call order
  (a `Visit` records the leaf value together with the requested window;
  `Visit.seg` is the concrete segment the Go callback's first argument
  would hold).
-/

namespace Lazy

mutual

/-- The `Value interface{}` field of Go's `lazy.Array`: either the nil
interface (zero value), a leaf `Slicer` payload, or a nested `Array`. -/
inductive Val (α : Type) : Type where
  | nilV : Val α
  | leaf (payload : List α) : Val α
  | node (a : Array α) : Val α

/-- Go's `lazy.Array` struct: `Limit`, `Count`, `Value` are the public
fields; `offset`, `rcount`, `replacement` the private ones. -/
inductive Array (α : Type) : Type where
  | mk (Limit Count : Int) (Value : Val α) (offset rcount : Int)
      (replacement : Repl α) : Array α

/-- The `replacement *Array` field: a nil-able pointer to a node. -/
inductive Repl (α : Type) : Type where
  | none : Repl α
  | some (a : Array α) : Repl α

end

variable {α : Type}

def Array.Limit : Array α → Int
  | .mk l _ _ _ _ _ => l

def Array.Count : Array α → Int
  | .mk _ c _ _ _ _ => c

def Array.value : Array α → Val α
  | .mk _ _ v _ _ _ => v

def Array.offset : Array α → Int
  | .mk _ _ _ o _ _ => o

def Array.rcount : Array α → Int
  | .mk _ _ _ _ r _ => r

def Array.replacement : Array α → Repl α
  | .mk _ _ _ _ _ r => r

/-- Whether the `replacement` pointer is non-nil (`a.replacement != nil`). -/
def Repl.isSome : Repl α → Bool
  | .none => false
  | .some _ => true

/-- `Array.Slice` from array.go: records the slice without performing it.
`none` models the Go `panic("invalid slice args")`. -/
def Array.Slice (a : Array α) (offset count : Int) : Option (Array α) :=
  if offset < 0 ∨ count < 0 ∨ offset + count > a.Count then
    none
  else if offset = 0 ∧ count = a.Count then
    some a
  else if count = 0 then
    some (.mk a.Limit 0 .nilV 0 0 .none)
  else if a.replacement.isSome = false then
    some (.mk a.Limit count a.value (a.offset + offset) 0 .none)
  else
    some (.mk (a.Limit - 1) count (.node a) offset 0 .none)

/-- `Array.Splice` from array.go: records the splice without performing it.
`none` models the Go `panic("invalid splice args")`. -/
def Array.Splice (a : Array α) (offset count : Int) (replacement : Array α) :
    Option (Array α) :=
  if offset < 0 ∨ count < 0 ∨ offset + count > a.Count then
    none
  else if offset = 0 ∧ count = a.Count then
    some replacement
  else
    let diff := replacement.Count - count
    if a.offset ≠ 0 ∨ a.replacement.isSome = true then
      some (.mk (a.Limit - 1) (a.Count + diff) (.node a) offset count
        (.some replacement))
    else
      some (.mk a.Limit (a.Count + diff) a.value offset count
        (.some replacement))

/-- `Array.intersect` from array.go (its receiver is unused, so it is a
plain function here): overlap of the windows `[o1, o1+c1)` and
`[o2, o2+c2)`, or `(0, 0)` when they do not overlap. -/
def intersect (o1 c1 o2 c2 : Int) : Int × Int :=
  let s := if o2 > o1 then o2 else o1
  let e := if o2 + c2 < o1 + c1 then o2 + c2 else o1 + c1
  if e > s then (s, e - s) else (0, 0)

/-- One callback invocation of `ForEach`: Go calls
`fn(v.(Slicer).Slice(offset, count), count)` where `v` is the non-`Array`
value reached; the record keeps `v` and the requested window. -/
structure Visit (α : Type) : Type where
  src : Val α
  off : Int
  cnt : Int

/-- The concrete first argument of the Go callback: the leaf payload's own
`Slice(off, cnt)`.  On a nil value Go would panic with a failed type
assertion; `[]` stands in for that unreachable case (the traversal
theorems below prove a well-formed traversal never visits a nil value). -/
def Visit.seg : Visit α → List α
  | ⟨.leaf p, o, c⟩ => (p.drop o.toNat).take c.toNat
  | ⟨.nilV, _, _⟩ => []
  | ⟨.node _, _, _⟩ => []

mutual

/-- The free function `forEach(v, offset, count, fn)` from array.go,
returning the visits in callback order. -/
def forEachV : Val α → Int → Int → List (Visit α)
  | v, offset, count =>
    if count = 0 then []
    else
      match v with
      | .node a => forEachA a offset count
      | v => [⟨v, offset, count⟩]

/-- The method `Array.forEach(offset, count, fn)` from array.go.  The
receiver is destructured in the pattern (the fields bound to the names of
the Go struct fields) so that the mutual recursion is structural. -/
def forEachA : Array α → Int → Int → List (Visit α)
  | .mk _ aCount aValue aOffset aRcount repl, offset, count =>
    if count = 0 then []
    else
      match repl with
      | .some r =>
        let p1 := intersect offset count 0 aOffset
        let p2 := intersect offset count aOffset r.Count
        let p3 := intersect offset count (aOffset + r.Count) aCount
        forEachV aValue p1.1 p1.2 ++
          forEachA r (p2.1 - aOffset) p2.2 ++
          forEachV aValue (p3.1 - r.Count + aRcount) p3.2
      | .none => forEachV aValue (aOffset + offset) count

end

/-- `Array.ForEach` from array.go: the full traversal. -/
def Array.ForEach (a : Array α) : List (Visit α) :=
  forEachA a 0 a.Count

/-- Concatenation of the segments a visit list delivers. -/
def segsOf (l : List (Visit α)) : List α :=
  (l.map Visit.seg).flatten

/-- The content a node's full traversal delivers, concatenated. -/
def contents (a : Array α) : List α :=
  segsOf a.ForEach

/-! ## Eager denotation and well-formedness -/

mutual

/-- The eager content of a value: a leaf payload denotes itself, a nested
node denotes its eager content. -/
def denoteV : Val α → List α
  | .nilV => []
  | .leaf p => p
  | .node a => denoteA a

/-- The eager content of a node.  A slice-view (or plain leaf node)
denotes the window `[offset, offset+Count)` of its value's content; a
splice-view denotes head (`[0, offset)` of the value) ++ replacement ++
tail (the value from `offset+rcount`, clipped to the node's `Count`). -/
def denoteA : Array α → List α
  | .mk _ aCount aValue aOffset aRcount repl =>
    match repl with
    | .some r =>
        (denoteV aValue).take aOffset.toNat ++ denoteA r ++
          ((denoteV aValue).drop (aOffset + aRcount).toNat).take
            (aCount - aOffset - r.Count).toNat
    | .none => ((denoteV aValue).drop aOffset.toNat).take aCount.toNat

end

mutual

/-- Well-formedness of a value serving windows inside `[0, avail)`:
a nil value serves nothing, a leaf payload must be long enough, a nested
node must be well-formed and at least as long. -/
def WFV : Val α → Int → Prop
  | .nilV, avail => avail ≤ 0
  | .leaf p, avail => avail ≤ (p.length : Int)
  | .node a, avail => avail ≤ a.Count ∧ WFA a

/-- Well-formedness of a node, the structural invariant every node built
through the public API satisfies (`Built_WFA` below). -/
def WFA : Array α → Prop
  | .mk _ aCount aValue aOffset aRcount repl =>
    match repl with
    | .some r =>
        0 ≤ aOffset ∧ 0 ≤ aRcount ∧ 0 ≤ aCount ∧
          aOffset + r.Count ≤ aCount ∧ WFA r ∧
          WFV aValue (aCount - r.Count + aRcount)
    | .none => 0 ≤ aOffset ∧ 0 ≤ aCount ∧ WFV aValue (aOffset + aCount)

end

/-- Elements `[s, e)` of a list, indices as integers clamped at `0`. -/
def extI (l : List α) (s e : Int) : List α :=
  (l.drop s.toNat).take (e.toNat - s.toNat)

/-- A callback invocation that is safe and productive: the visited value
is an original leaf payload (never nil, never a nested node) and the
requested window is a non-empty in-bounds sub-range of that payload. -/
def goodVisit (vis : Visit α) : Prop :=
  ∃ p, vis.src = Val.leaf p ∧ 0 ≤ vis.off ∧ 1 ≤ vis.cnt ∧
    vis.off + vis.cnt ≤ (p.length : Int)

/-- Nodes built through the package's public API: initial leaf wrappers
`lazy.Array{Limit: lim, Count: cnt, Value: payload}` whose `Count` is
non-negative and does not exceed the payload's length, the zero value
`lazy.Array{}` (any `Limit`), and everything a successful `Slice` or
`Splice` call on such nodes returns. -/
inductive Built : Array α → Prop where
  | leaf (lim cnt : Int) (p : List α) (h0 : 0 ≤ cnt)
      (h1 : cnt ≤ (p.length : Int)) :
      Built (.mk lim cnt (.leaf p) 0 0 .none)
  | zero (lim : Int) : Built (.mk lim 0 .nilV 0 0 .none)
  | slice {a b : Array α} (o c : Int) (ha : Built a)
      (h : a.Slice o c = some b) : Built b
  | splice {a r b : Array α} (o c : Int) (ha : Built a) (hr : Built r)
      (h : a.Splice o c r = some b) : Built b

theorem Limit_mk (lim c : Int) (v : Val α) (o rc : Int) (rep : Repl α) :
    (Array.mk lim c v o rc rep).Limit = lim := rfl

theorem Count_mk (lim c : Int) (v : Val α) (o rc : Int) (rep : Repl α) :
    (Array.mk lim c v o rc rep).Count = c := rfl

theorem value_mk (lim c : Int) (v : Val α) (o rc : Int) (rep : Repl α) :
    (Array.mk lim c v o rc rep).value = v := rfl

theorem offset_mk (lim c : Int) (v : Val α) (o rc : Int) (rep : Repl α) :
    (Array.mk lim c v o rc rep).offset = o := rfl

theorem rcount_mk (lim c : Int) (v : Val α) (o rc : Int) (rep : Repl α) :
    (Array.mk lim c v o rc rep).rcount = rc := rfl

theorem replacement_mk (lim c : Int) (v : Val α) (o rc : Int) (rep : Repl α) :
    (Array.mk lim c v o rc rep).replacement = rep := rfl

/-! ## The eager reference implementation (from the spec), node variants,
and concrete example nodes -/

/-- The spec's eager reference for `slice`: the sub-range
`[offset, offset+count)` of the current content, taken at call time. -/
def eagerSlice (S : List α) (offset count : Int) : List α :=
  (S.drop offset.toNat).take count.toNat

/-- The spec's eager reference for `splice`: a substring replace performed
at the moment of the call, `head + replacement + tail`. -/
def eagerSplice (S : List α) (offset count : Int) (repl : List α) : List α :=
  S.take offset.toNat ++ repl ++ S.drop (offset + count).toNat

/-- The spec's "slice-view" variant: the `offset` field is populated (in
Go the zero value `0` means "not populated") and there is no pending
replacement. -/
def isSliceView (a : Array α) : Prop :=
  a.offset ≠ 0 ∧ a.replacement = Repl.none

/-- The spec's "splice-view" variant: the `replacement` field is
populated. -/
def isSpliceView (a : Array α) : Prop :=
  a.replacement ≠ Repl.none

/-- Example: the initial leaf wrapper over the payload `[0,1,2,3,4]`. -/
def exLeaf5 : Array Nat :=
  .mk 10 5 (.leaf [0, 1, 2, 3, 4]) 0 0 .none

/-- Example: a leaf wrapper over the empty payload. -/
def exEmpty : Array Nat :=
  .mk 10 0 (.leaf []) 0 0 .none

/-- Example: the node `exLeaf5.Splice 2 0 exEmpty` (insert nothing at
position 2), written out as the splice-view that call constructs. -/
def exIns : Array Nat :=
  .mk 10 5 (.leaf [0, 1, 2, 3, 4]) 2 0 (.some exEmpty)

/-- Example: the node `exLeaf5.Slice 1 2`, written out as the slice-view
that call constructs. -/
def exSlice : Array Nat :=
  .mk 10 2 (.leaf [0, 1, 2, 3, 4]) 1 0 .none

theorem Count_nonneg {a : Array α} (h : WFA a) : 0 ≤ a.Count := by
  obtain ⟨_, _, v, _, _, repl⟩ := a
  cases repl <;> simp only [WFA, Array.Count] at h ⊢ <;> tauto

/-! ## Interval extraction on lists -/

theorem extI_nil (s e : Int) : extI ([] : List α) s e = [] := by
  simp [extI]

theorem extI_of_le {s e : Int} (l : List α) (h : e.toNat ≤ s.toNat) :
    extI l s e = [] := by
  have : e.toNat - s.toNat = 0 := by omega
  simp [extI, this]

theorem extI_clip (l : List α) (s : Int) {e e' : Int}
    (h : (l.length : Int) ≤ e) (h' : (l.length : Int) ≤ e') :
    extI l s e = extI l s e' := by
  simp only [extI]
  rw [List.take_eq_take]
  simp only [List.length_drop]
  omega

theorem extI_of_length_le {s : Int} (l : List α) (e : Int)
    (h : (l.length : Int) ≤ s) : extI l s e = [] := by
  have : l.length ≤ s.toNat := by omega
  simp [extI, List.drop_eq_nil_of_le this]

theorem extI_all {e : Int} (l : List α) (h : (l.length : Int) ≤ e) :
    extI l 0 e = l := by
  have : l.length ≤ e.toNat := by omega
  simp [extI, List.take_of_length_le this]

theorem extI_congr (l : List α) {s s' e e' : Int} (hs : s.toNat = s'.toNat)
    (he : e.toNat = e'.toNat) : extI l s e = extI l s' e' := by
  simp [extI, hs, he]

theorem length_extI (l : List α) (s e : Int) :
    (extI l s e).length = min (e.toNat - s.toNat) (l.length - s.toNat) := by
  simp [extI]

theorem extI_append (A B : List α) (s e : Int) :
    extI (A ++ B) s e =
      extI A s e ++ extI B (s - A.length) (e - A.length) := by
  simp only [extI, List.drop_append_eq_append_drop,
    List.take_append_eq_append_take, List.length_drop]
  have h1 : s.toNat - A.length = (s - A.length).toNat := by omega
  have h2 : e.toNat - s.toNat - (A.length - s.toNat) =
      (e - A.length).toNat - (s - A.length).toNat := by omega
  rw [h1, h2]

theorem extI_take (l : List α) (t : Nat) (x y : Int) :
    extI (l.take t) x y = extI l x (min y ↑t) := by
  simp only [extI, List.drop_take, List.take_take]
  congr 1
  omega

theorem extI_drop_take (l : List α) (d t : Nat) (x y : Int) (hx : 0 ≤ x) :
    extI ((l.drop d).take t) x y = extI l (d + x) (d + min y ↑t) := by
  simp only [extI, List.drop_take, List.drop_drop, List.take_take]
  have h1 : d + x.toNat = (d + x).toNat := by omega
  rw [h1]
  congr 1
  omega

/-! ## Small facts about `segsOf` and `intersect` -/

theorem segsOf_nil : segsOf ([] : List (Visit α)) = [] := rfl

theorem segsOf_append (l1 l2 : List (Visit α)) :
    segsOf (l1 ++ l2) = segsOf l1 ++ segsOf l2 := by
  simp [segsOf]

theorem segsOf_single (v : Visit α) : segsOf [v] = v.seg := by
  simp [segsOf]

/-- `intersect` computes the overlap of `[o1, o1+c1)` and `[o2, o2+c2)`. -/
theorem intersect_eq (o1 c1 o2 c2 : Int) :
    intersect o1 c1 o2 c2 =
      if max o1 o2 < min (o1 + c1) (o2 + c2) then
        (max o1 o2, min (o1 + c1) (o2 + c2) - max o1 o2)
      else (0, 0) := by
  simp only [intersect]
  have hs : (if o2 > o1 then o2 else o1) = max o1 o2 := by
    split <;> omega
  have he : (if o2 + c2 < o1 + c1 then o2 + c2 else o1 + c1) =
      min (o1 + c1) (o2 + c2) := by
    split <;> omega
  rw [hs, he]

/-! ## Length of the denotation -/

mutual

theorem denoteV_len : ∀ (v : Val α) (avail : Int), WFV v avail →
    avail ≤ ((denoteV v).length : Int)
  | .nilV, avail, h => by
      simp only [WFV] at h
      simp only [denoteV, List.length_nil]
      omega
  | .leaf p, avail, h => by
      simp only [WFV] at h
      simpa [denoteV] using h
  | .node a, avail, h => by
      simp only [WFV] at h
      have := denoteA_len a h.2
      simp only [denoteV]
      omega

theorem denoteA_len : ∀ (a : Array α), WFA a →
    ((denoteA a).length : Int) = a.Count
  | .mk _ aCount aValue aOffset aRcount (.some r), h => by
      simp only [WFA] at h
      obtain ⟨hO, hRC, hC, hOR, hr, hv⟩ := h
      have ihv := denoteV_len aValue _ hv
      have ihr := denoteA_len r hr
      have hrC := Count_nonneg hr
      simp only [denoteA, Count_mk, List.length_append, List.length_take,
        List.length_drop]
      push_cast
      omega
  | .mk _ aCount aValue aOffset aRcount .none, h => by
      simp only [WFA] at h
      obtain ⟨hO, hC, hv⟩ := h
      have ihv := denoteV_len aValue _ hv
      simp only [denoteA, Count_mk, List.length_take, List.length_drop]
      push_cast
      omega

end

/-! ## The master traversal theorem -/

theorem forEachV_zero (v : Val α) (off : Int) : forEachV v off 0 = [] := by
  cases v <;> simp [forEachV]

theorem forEachA_zero (a : Array α) (off : Int) : forEachA a off 0 = [] := by
  obtain ⟨_, _, _, _, _, repl⟩ := a
  cases repl <;> simp [forEachA]

mutual

theorem forEachV_spec : ∀ (v : Val α) (avail off cnt : Int), WFV v avail →
    0 ≤ off → 0 ≤ cnt → off + cnt ≤ avail →
    segsOf (forEachV v off cnt) = extI (denoteV v) off (off + cnt) ∧
      ∀ vis ∈ forEachV v off cnt, goodVisit vis
  | .nilV, avail, off, cnt, hwf, h0, h1, h2 => by
      simp only [WFV] at hwf
      have hcz : cnt = 0 := by omega
      subst hcz
      rw [forEachV_zero]
      exact ⟨by rw [extI_of_le _ (by omega)]; rfl, by simp⟩
  | .leaf p, avail, off, cnt, hwf, h0, h1, h2 => by
      simp only [WFV] at hwf
      by_cases hcz : cnt = 0
      · subst hcz
        rw [forEachV_zero]
        exact ⟨by rw [extI_of_le _ (by omega)]; rfl, by simp⟩
      · have hfe : forEachV (Val.leaf p) off cnt = [⟨Val.leaf p, off, cnt⟩] := by
          simp [forEachV, hcz]
        rw [hfe]
        constructor
        · rw [segsOf_single]
          show (p.drop off.toNat).take cnt.toNat = _
          simp only [denoteV, extI]
          congr 1
          omega
        · intro vis hm
          simp only [List.mem_singleton] at hm
          subst hm
          exact ⟨p, rfl, h0, show 1 ≤ cnt by omega,
            show off + cnt ≤ (p.length : Int) by omega⟩
  | .node a, avail, off, cnt, hwf, h0, h1, h2 => by
      simp only [WFV] at hwf
      by_cases hcz : cnt = 0
      · subst hcz
        rw [forEachV_zero]
        exact ⟨by rw [extI_of_le _ (by omega)]; rfl, by simp⟩
      · have hfe : forEachV (Val.node a) off cnt = forEachA a off cnt := by
          simp [forEachV, hcz]
        rw [hfe]
        simpa only [denoteV] using
          forEachA_spec a off cnt hwf.2 h0 h1 (by omega)

theorem forEachA_spec : ∀ (a : Array α) (off cnt : Int), WFA a →
    0 ≤ off → 0 ≤ cnt → off + cnt ≤ a.Count →
    segsOf (forEachA a off cnt) = extI (denoteA a) off (off + cnt) ∧
      ∀ vis ∈ forEachA a off cnt, goodVisit vis
  | .mk lim aCount aValue aOffset aRcount .none, off, cnt, hwf, h0, h1, h2 => by
      simp only [WFA] at hwf
      obtain ⟨hO, hC, hv⟩ := hwf
      simp only [Count_mk] at h2
      by_cases hcz : cnt = 0
      · subst hcz
        rw [forEachA_zero]
        exact ⟨by rw [extI_of_le _ (by omega)]; rfl, by simp⟩
      · have hfe : forEachA (Array.mk lim aCount aValue aOffset aRcount Repl.none)
            off cnt = forEachV aValue (aOffset + off) cnt := by
          simp [forEachA, hcz]
        rw [hfe]
        obtain ⟨ih1, ih2⟩ := forEachV_spec aValue (aOffset + aCount)
          (aOffset + off) cnt hv (by omega) h1 (by omega)
        refine ⟨?_, ih2⟩
        rw [ih1]
        simp only [denoteA]
        rw [extI_drop_take _ _ _ _ _ h0]
        exact extI_congr _ (by omega) (by omega)
  | .mk lim aCount aValue aOffset aRcount (.some r), off, cnt, hwf, h0, h1, h2 => by
      simp only [WFA] at hwf
      obtain ⟨hO, hRC, hC, hOR, hr, hv⟩ := hwf
      simp only [Count_mk] at h2
      by_cases hcz : cnt = 0
      · subst hcz
        rw [forEachA_zero]
        exact ⟨by rw [extI_of_le _ (by omega)]; rfl, by simp⟩
      · have hrC := Count_nonneg hr
        have hVL := denoteV_len aValue _ hv
        have hRlen := denoteA_len r hr
        have hcnt1 : 1 ≤ cnt := by omega
        have hfe : forEachA (Array.mk lim aCount aValue aOffset aRcount
              (Repl.some r)) off cnt
            = forEachV aValue (intersect off cnt 0 aOffset).1
                (intersect off cnt 0 aOffset).2 ++
              forEachA r ((intersect off cnt aOffset r.Count).1 - aOffset)
                (intersect off cnt aOffset r.Count).2 ++
              forEachV aValue
                ((intersect off cnt (aOffset + r.Count) aCount).1 -
                  r.Count + aRcount)
                (intersect off cnt (aOffset + r.Count) aCount).2 := by
          simp [forEachA, hcz]
        -- the head zone
        have head : segsOf (forEachV aValue (intersect off cnt 0 aOffset).1
              (intersect off cnt 0 aOffset).2) =
              extI ((denoteV aValue).take aOffset.toNat) off (off + cnt) ∧
            ∀ vis ∈ forEachV aValue (intersect off cnt 0 aOffset).1
              (intersect off cnt 0 aOffset).2, goodVisit vis := by
          by_cases hc : max off 0 < min (off + cnt) (0 + aOffset)
          · simp only [intersect_eq, if_pos hc]
            obtain ⟨ih1, ih2⟩ := forEachV_spec aValue
              (aCount - r.Count + aRcount) (max off 0)
              (min (off + cnt) (0 + aOffset) - max off 0) hv
              (by omega) (by omega) (by omega)
            refine ⟨?_, ih2⟩
            rw [ih1, extI_take]
            exact extI_congr _ (by omega) (by omega)
          · simp only [intersect_eq, if_neg hc]
            constructor
            · rw [forEachV_zero, segsOf_nil, extI_take]
              exact (extI_of_le _ (by omega)).symm
            · rw [forEachV_zero]
              intro vis hm
              simp at hm
        -- the middle (replacement) zone
        have mid : segsOf (forEachA r
              ((intersect off cnt aOffset r.Count).1 - aOffset)
              (intersect off cnt aOffset r.Count).2) =
              extI (denoteA r) (off - aOffset) (off + cnt - aOffset) ∧
            ∀ vis ∈ forEachA r ((intersect off cnt aOffset r.Count).1 - aOffset)
              (intersect off cnt aOffset r.Count).2, goodVisit vis := by
          by_cases hc : max off aOffset < min (off + cnt) (aOffset + r.Count)
          · simp only [intersect_eq, if_pos hc]
            obtain ⟨ih1, ih2⟩ := forEachA_spec r (max off aOffset - aOffset)
              (min (off + cnt) (aOffset + r.Count) - max off aOffset) hr
              (by omega) (by omega) (by omega)
            refine ⟨?_, ih2⟩
            rw [ih1]
            by_cases hEl : off + cnt ≤ aOffset + r.Count
            · exact extI_congr _ (by omega) (by omega)
            · refine (extI_congr _ (show
                  (max off aOffset - aOffset).toNat = (off - aOffset).toNat
                  by omega) rfl).trans ?_
              exact extI_clip _ _ (by omega) (by omega)
          · simp only [intersect_eq, if_neg hc]
            constructor
            · rw [forEachA_zero, segsOf_nil]
              symm
              rcases (by omega : off + cnt ≤ aOffset ∨
                  aOffset + r.Count ≤ off ∨ r.Count ≤ 0) with h' | h' | h'
              · exact extI_of_le _ (by omega)
              · exact extI_of_length_le _ _ (by omega)
              · have hnil : denoteA r = [] := by
                  have hz : (denoteA r).length = 0 := by omega
                  exact List.eq_nil_of_length_eq_zero hz
                rw [hnil]
                exact extI_nil _ _
            · rw [forEachA_zero]
              intro vis hm
              simp at hm
        -- the tail zone
        have tail : segsOf (forEachV aValue
              ((intersect off cnt (aOffset + r.Count) aCount).1 -
                r.Count + aRcount)
              (intersect off cnt (aOffset + r.Count) aCount).2) =
              extI (((denoteV aValue).drop (aOffset + aRcount).toNat).take
                  (aCount - aOffset - r.Count).toNat)
                (off - aOffset - r.Count) (off + cnt - aOffset - r.Count) ∧
            ∀ vis ∈ forEachV aValue
              ((intersect off cnt (aOffset + r.Count) aCount).1 -
                r.Count + aRcount)
              (intersect off cnt (aOffset + r.Count) aCount).2, goodVisit vis := by
          by_cases hc : max off (aOffset + r.Count) <
              min (off + cnt) (aOffset + r.Count + aCount)
          · simp only [intersect_eq, if_pos hc]
            obtain ⟨ih1, ih2⟩ := forEachV_spec aValue
              (aCount - r.Count + aRcount)
              (max off (aOffset + r.Count) - r.Count + aRcount)
              (min (off + cnt) (aOffset + r.Count + aCount) -
                max off (aOffset + r.Count))
              hv (by omega) (by omega) (by omega)
            refine ⟨?_, ih2⟩
            rw [ih1]
            symm
            refine (extI_congr _ (show (off - aOffset - r.Count).toNat =
                (max (off - aOffset - r.Count) 0).toNat by omega) rfl).trans ?_
            refine (extI_drop_take _ _ _ _ _ (by omega)).trans ?_
            exact extI_congr _ (by omega) (by omega)
          · simp only [intersect_eq, if_neg hc]
            constructor
            · rw [forEachV_zero, segsOf_nil]
              exact (extI_of_le _ (by omega)).symm
            · rw [forEachV_zero]
              intro vis hm
              simp at hm
        obtain ⟨h1eq, h1good⟩ := head
        obtain ⟨h2eq, h2good⟩ := mid
        obtain ⟨h3eq, h3good⟩ := tail
        rw [hfe]
        have hlH : ((denoteV aValue).take aOffset.toNat).length
            = aOffset.toNat := by
          rw [List.length_take]
          omega
        have hlM : (denoteA r).length = r.Count.toNat := by omega
        constructor
        · rw [segsOf_append, segsOf_append, h1eq, h2eq, h3eq]
          simp only [denoteA]
          rw [extI_append, extI_append, List.length_append]
          congr 1
          · congr 1
            exact extI_congr _ (by omega) (by omega)
          · exact extI_congr _ (by omega) (by omega)
        · intro vis hm
          simp only [List.mem_append] at hm
          rcases hm with (hm | hm) | hm
          · exact h1good _ hm
          · exact h2good _ hm
          · exact h3good _ hm

end

/-! ## Consequences of the master theorem -/

theorem contents_eq_denote {a : Array α} (ha : WFA a) :
    contents a = denoteA a := by
  have h := (forEachA_spec a 0 a.Count ha le_rfl (Count_nonneg ha)
    (by omega)).1
  rw [contents, Array.ForEach, h]
  have hl := denoteA_len a ha
  exact extI_all _ (by omega)

theorem ForEach_good {a : Array α} (ha : WFA a) :
    ∀ vis ∈ a.ForEach, goodVisit vis :=
  (forEachA_spec a 0 a.Count ha le_rfl (Count_nonneg ha) (by omega)).2

theorem good_seg_len {vis : Visit α} (h : goodVisit vis) :
    ((vis.seg.length : Int)) = vis.cnt := by
  obtain ⟨src, o, c⟩ := vis
  obtain ⟨p, hsrc, h0, h1, h2⟩ := h
  simp only at hsrc h0 h1 h2
  subst hsrc
  show (((p.drop o.toNat).take c.toNat).length : Int) = c
  rw [List.length_take, List.length_drop]
  omega

theorem segsOf_length {l : List (Visit α)}
    (h : ∀ v ∈ l, goodVisit v) :
    ((segsOf l).length : Int) = (l.map Visit.cnt).sum := by
  induction l with
  | nil => simp [segsOf]
  | cons v t ih =>
      have hv := good_seg_len (h v (by simp))
      have ht := ih (fun x hx => h x (by simp [hx]))
      simp only [segsOf, List.map_cons, List.flatten_cons, List.length_append,
        List.sum_cons] at *
      push_cast
      omega

/-! ## Nodes reachable through the public API -/

theorem WFV_mono {v : Val α} {avail avail' : Int} (h : WFV v avail)
    (hle : avail' ≤ avail) : WFV v avail' := by
  cases v <;> simp only [WFV] at h ⊢ <;> first | omega | exact ⟨by omega, h.2⟩

theorem Slice_none_iff (a : Array α) (o c : Int) :
    a.Slice o c = none ↔ (o < 0 ∨ c < 0 ∨ o + c > a.Count) := by
  simp only [Array.Slice]
  split_ifs <;> simp_all

theorem Splice_none_iff (a : Array α) (o c : Int) (r : Array α) :
    a.Splice o c r = none ↔ (o < 0 ∨ c < 0 ∨ o + c > a.Count) := by
  simp only [Array.Splice]
  split_ifs <;> simp_all

theorem Slice_bounds {a b : Array α} {o c : Int} (h : a.Slice o c = some b) :
    0 ≤ o ∧ 0 ≤ c ∧ o + c ≤ a.Count := by
  by_cases hb : o < 0 ∨ c < 0 ∨ o + c > a.Count
  · rw [Array.Slice, if_pos hb] at h
    cases h
  · omega

theorem Splice_bounds {a r b : Array α} {o c : Int}
    (h : a.Splice o c r = some b) : 0 ≤ o ∧ 0 ≤ c ∧ o + c ≤ a.Count := by
  by_cases hb : o < 0 ∨ c < 0 ∨ o + c > a.Count
  · rw [Array.Splice, if_pos hb] at h
    cases h
  · omega

/-- Full case analysis of a successful `Slice`: the four constructing
branches of array.go's `Slice`. -/
theorem Slice_eq {a b : Array α} {o c : Int} (h : a.Slice o c = some b) :
    (0 ≤ o ∧ 0 ≤ c ∧ o + c ≤ a.Count) ∧
    ((o = 0 ∧ c = a.Count ∧ b = a) ∨
     (¬(o = 0 ∧ c = a.Count) ∧ c = 0 ∧
        b = .mk a.Limit 0 .nilV 0 0 .none) ∨
     (¬(o = 0 ∧ c = a.Count) ∧ c ≠ 0 ∧ a.replacement = .none ∧
        b = .mk a.Limit c a.value (a.offset + o) 0 .none) ∨
     (¬(o = 0 ∧ c = a.Count) ∧ c ≠ 0 ∧ (∃ r, a.replacement = .some r) ∧
        b = .mk (a.Limit - 1) c (.node a) o 0 .none)) := by
  obtain ⟨hb0, hb1, hb2⟩ := Slice_bounds h
  rw [Array.Slice, if_neg (by omega)] at h
  refine ⟨⟨hb0, hb1, hb2⟩, ?_⟩
  by_cases hid : o = 0 ∧ c = a.Count
  · rw [if_pos hid] at h
    injection h with h
    exact Or.inl ⟨hid.1, hid.2, h.symm⟩
  · rw [if_neg hid] at h
    by_cases hz : c = 0
    · rw [if_pos hz] at h
      injection h with h
      exact Or.inr (Or.inl ⟨hid, hz, h.symm⟩)
    · rw [if_neg hz] at h
      by_cases hrep : a.replacement.isSome = false
      · rw [if_pos hrep] at h
        injection h with h
        have hnone : a.replacement = .none := by
          cases hx : a.replacement
          · rfl
          · rw [hx] at hrep
            simp [Repl.isSome] at hrep
        exact Or.inr (Or.inr (Or.inl ⟨hid, hz, hnone, h.symm⟩))
      · rw [if_neg hrep] at h
        injection h with h
        have hsome : ∃ r, a.replacement = .some r := by
          cases hx : a.replacement
          · rw [hx] at hrep
            simp [Repl.isSome] at hrep
          · exact ⟨_, rfl⟩
        exact Or.inr (Or.inr (Or.inr ⟨hid, hz, hsome, h.symm⟩))

/-- Full case analysis of a successful `Splice`: the three constructing
branches of array.go's `Splice`. -/
theorem Splice_eq {a r b : Array α} {o c : Int} (h : a.Splice o c r = some b) :
    (0 ≤ o ∧ 0 ≤ c ∧ o + c ≤ a.Count) ∧
    ((o = 0 ∧ c = a.Count ∧ b = r) ∨
     (¬(o = 0 ∧ c = a.Count) ∧ (a.offset ≠ 0 ∨ a.replacement.isSome = true) ∧
        b = .mk (a.Limit - 1) (a.Count + (r.Count - c)) (.node a) o c
          (.some r)) ∨
     (¬(o = 0 ∧ c = a.Count) ∧ a.offset = 0 ∧ a.replacement = .none ∧
        b = .mk a.Limit (a.Count + (r.Count - c)) a.value o c (.some r))) := by
  obtain ⟨hb0, hb1, hb2⟩ := Splice_bounds h
  rw [Array.Splice, if_neg (by omega)] at h
  refine ⟨⟨hb0, hb1, hb2⟩, ?_⟩
  by_cases hid : o = 0 ∧ c = a.Count
  · rw [if_pos hid] at h
    injection h with h
    exact Or.inl ⟨hid.1, hid.2, h.symm⟩
  · rw [if_neg hid] at h
    simp only [] at h
    by_cases hw : a.offset ≠ 0 ∨ a.replacement.isSome = true
    · rw [if_pos hw] at h
      injection h with h
      exact Or.inr (Or.inl ⟨hid, hw, h.symm⟩)
    · rw [if_neg hw] at h
      injection h with h
      push_neg at hw
      have hnone : a.replacement = .none := by
        cases hx : a.replacement
        · rfl
        · rw [hx] at hw
          simp [Repl.isSome] at hw
      exact Or.inr (Or.inr ⟨hid, hw.1, hnone, h.symm⟩)

theorem WFA_slice {a b : Array α} {o c : Int} (ha : WFA a)
    (h : a.Slice o c = some b) : WFA b := by
  obtain ⟨⟨hb0, hb1, hb2⟩, hcase⟩ := Slice_eq h
  rcases hcase with ⟨_, _, rfl⟩ | ⟨_, _, rfl⟩ | ⟨_, hz, hnone, rfl⟩ |
    ⟨_, hz, ⟨r, hsome⟩, rfl⟩
  · exact ha
  · simp only [WFA, WFV]
    omega
  · -- collapse: need the value's well-formedness from `a`
    obtain ⟨lim, aCount, aValue, aOffset, aRcount, repl⟩ := a
    simp only [replacement_mk] at hnone
    subst hnone
    simp only [WFA] at ha
    obtain ⟨hO, hC, hv⟩ := ha
    simp only [Count_mk, offset_mk, value_mk, Limit_mk] at *
    simp only [WFA]
    exact ⟨by omega, by omega, WFV_mono hv (by omega)⟩
  · simp only [WFA, WFV]
    exact ⟨hb0, hb1, ⟨by omega, ha⟩⟩

theorem WFA_splice {a r b : Array α} {o c : Int} (ha : WFA a) (hr : WFA r)
    (h : a.Splice o c r = some b) : WFA b := by
  obtain ⟨⟨hb0, hb1, hb2⟩, hcase⟩ := Splice_eq h
  have hrC := Count_nonneg hr
  have haC := Count_nonneg ha
  rcases hcase with ⟨_, _, rfl⟩ | ⟨_, hw, rfl⟩ | ⟨_, hoff, hnone, rfl⟩
  · exact hr
  · simp only [WFA, WFV, Count_mk]
    exact ⟨hb0, hb1, by omega, by omega, hr, ⟨by omega, ha⟩⟩
  · obtain ⟨lim, aCount, aValue, aOffset, aRcount, repl⟩ := a
    simp only [replacement_mk] at hnone
    subst hnone
    simp only [offset_mk] at hoff
    simp only [WFA] at ha
    obtain ⟨hO, hC, hv⟩ := ha
    simp only [Count_mk, value_mk, Limit_mk] at *
    simp only [WFA]
    exact ⟨hb0, hb1, by omega, by omega, hr,
      WFV_mono hv (by omega)⟩

/-- A successful `Slice` denotes the requested window. -/
theorem denote_slice {a b : Array α} {o c : Int} (ha : WFA a)
    (h : a.Slice o c = some b) :
    denoteA b = extI (denoteA a) o (o + c) := by
  obtain ⟨⟨hb0, hb1, hb2⟩, hcase⟩ := Slice_eq h
  have hal := denoteA_len a ha
  rcases hcase with ⟨ho, hc, rfl⟩ | ⟨_, hz, rfl⟩ | ⟨_, hz, hnone, rfl⟩ |
    ⟨_, hz, ⟨r, hsome⟩, rfl⟩
  · subst ho
    subst hc
    exact (extI_all _ (by omega)).symm
  · subst hz
    rw [extI_of_le _ (by omega)]
    simp [denoteA, denoteV]
  · obtain ⟨lim, aCount, aValue, aOffset, aRcount, repl⟩ := a
    simp only [replacement_mk] at hnone
    subst hnone
    simp only [WFA] at ha
    obtain ⟨hO, hC, hv⟩ := ha
    have hvl := denoteV_len aValue _ hv
    simp only [Count_mk, offset_mk, value_mk, Limit_mk] at *
    simp only [denoteA]
    rw [extI_drop_take _ _ _ _ _ hb0]
    have hx : List.take c.toNat (List.drop (aOffset + o).toNat
        (denoteV aValue)) = extI (denoteV aValue) (aOffset + o)
        (aOffset + o + c) := by
      simp only [extI]
      congr 1
      omega
    rw [hx]
    exact extI_congr _ (by omega) (by omega)
  · simp only [denoteA, denoteV]
    simp only [extI]
    congr 1
    omega

/-- A successful `Splice` denotes head ++ replacement ++ tail. -/
theorem denote_splice {a r b : Array α} {o c : Int} (ha : WFA a) (hr : WFA r)
    (h : a.Splice o c r = some b) :
    denoteA b = (denoteA a).take o.toNat ++ denoteA r ++
      (denoteA a).drop (o + c).toNat := by
  obtain ⟨⟨hb0, hb1, hb2⟩, hcase⟩ := Splice_eq h
  have hal := denoteA_len a ha
  have hrC := Count_nonneg hr
  rcases hcase with ⟨ho, hc, rfl⟩ | ⟨_, hw, rfl⟩ | ⟨_, hoff, hnone, rfl⟩
  · subst ho
    have h1 : (denoteA a).take (0 : Int).toNat = [] := by simp
    have h2 : (denoteA a).drop ((0 : Int) + c).toNat = [] :=
      List.drop_eq_nil_of_le (by omega)
    rw [h1, h2]
    simp
  · simp only [denoteA, denoteV, Count_mk]
    congr 1
    exact List.take_of_length_le (by rw [List.length_drop]; omega)
  · obtain ⟨lim, aCount, aValue, aOffset, aRcount, repl⟩ := a
    simp only [replacement_mk] at hnone
    subst hnone
    simp only [offset_mk] at hoff
    subst hoff
    simp only [WFA] at ha
    obtain ⟨hO, hC, hv⟩ := ha
    have hvl := denoteV_len aValue _ hv
    simp only [Count_mk, value_mk, Limit_mk] at *
    simp only [denoteA, Int.toNat_zero, List.drop_zero]
    congr 1
    · congr 1
      rw [List.take_take]
      congr 1
      omega
    · rw [List.drop_take]
      congr 1
      omega

theorem Built_WFA {a : Array α} (h : Built a) : WFA a := by
  induction h with
  | leaf lim cnt p h0 h1 =>
      simp only [WFA, WFV]
      omega
  | zero lim =>
      simp only [WFA, WFV]
      omega
  | slice o c ha h ih => exact WFA_slice ih h
  | splice o c ha hr h iha ihr => exact WFA_splice iha ihr h


/-! ## Helper lemmas about the constructed nodes -/

theorem Slice_count {a b : Array α} {o c : Int}
    (h : a.Slice o c = some b) : b.Count = c := by
  obtain ⟨⟨hb0, hb1, hb2⟩, hcase⟩ := Slice_eq h
  rcases hcase with ⟨ho, hc, rfl⟩ | ⟨_, hz, rfl⟩ | ⟨_, _, _, rfl⟩ |
    ⟨_, _, _, rfl⟩
  · exact hc.symm
  · simp only [Count_mk]
    omega
  · rfl
  · rfl

theorem Splice_count {a r b : Array α} {o c : Int}
    (h : a.Splice o c r = some b) : b.Count = a.Count + (r.Count - c) := by
  obtain ⟨⟨hb0, hb1, hb2⟩, hcase⟩ := Splice_eq h
  rcases hcase with ⟨ho, hc, rfl⟩ | ⟨_, _, rfl⟩ | ⟨_, _, _, rfl⟩
  · omega
  · rfl
  · rfl

/-- The spec's "slice-view or splice-view" condition coincides with the
test `a.offset != 0 || a.replacement != nil` in array.go's `Splice`. -/
theorem view_condition (a : Array α) :
    (isSliceView a ∨ isSpliceView a) ↔
      (a.offset ≠ 0 ∨ a.replacement.isSome = true) := by
  cases hx : a.replacement with
  | none => simp [isSliceView, isSpliceView, Repl.isSome, hx]
  | some r => simp [isSliceView, isSpliceView, Repl.isSome, hx]

/-! ## The claims -/

/-- C1: for every initial leaf payload and every sequence of in-bounds
edits applied through `Slice` and `Splice` (the replacement may itself be
a previously built node), concatenating the segments `ForEach` delivers
(`contents`) on each resulting node yields exactly what the eager
reference produces (`eagerSlice` / `eagerSplice`: perform the substring
replace, head + replacement + tail, at the moment of the call).  Stated
as the base case — an initial leaf wrapper traverses to its payload —
plus the inductive step: on every API-built node `a` and replacement `r`,
in-bounds `Slice` and `Splice` both succeed and commute with the eager
reference on `contents`.  By induction over the call sequence this gives
the claimed equality at every intermediate node, not just the final one. -/
theorem slice_splice_refine_eager (a r : Array α) (o c : Int)
    (ha : Built a) (hr : Built r) (ho : 0 ≤ o) (hc : 0 ≤ c)
    (hoc : o + c ≤ a.Count) :
    (∀ (lim : Int) (p : List α),
        contents (Array.mk lim (p.length : Int) (.leaf p) 0 0 .none) = p) ∧
    (∃ bs, a.Slice o c = some bs ∧
        contents bs = eagerSlice (contents a) o c) ∧
    (∃ bp, a.Splice o c r = some bp ∧
        contents bp = eagerSplice (contents a) o c (contents r)) := by
  have hwa := Built_WFA ha
  have hwr := Built_WFA hr
  refine ⟨?_, ?_, ?_⟩
  · intro lim p
    have hwf : WFA (Array.mk lim (p.length : Int) (.leaf p) 0 0 .none) := by
      simp only [WFA, WFV]
      omega
    rw [contents_eq_denote hwf]
    simp [denoteA, denoteV]
  · cases hs : a.Slice o c with
    | none =>
        rw [Slice_none_iff] at hs
        omega
    | some bs =>
        refine ⟨bs, rfl, ?_⟩
        rw [contents_eq_denote (WFA_slice hwa hs), denote_slice hwa hs,
          contents_eq_denote hwa]
        simp only [eagerSlice, extI]
        congr 1
        omega
  · cases hp : a.Splice o c r with
    | none =>
        rw [Splice_none_iff] at hp
        omega
    | some bp =>
        refine ⟨bp, rfl, ?_⟩
        rw [contents_eq_denote (WFA_splice hwa hwr hp),
          denote_splice hwa hwr hp, contents_eq_denote hwa,
          contents_eq_denote hwr]
        rfl

/-- C1 witness: the refinement instantiated at the leaf `[0,1,2,3,4]`,
window `(1, 2)`, replacement the empty leaf. -/
theorem slice_splice_refine_eager_witness :
    contents (Array.mk 7 (([9, 9, 9] : List Nat).length : Int)
        (.leaf [9, 9, 9]) 0 0 .none) = [9, 9, 9] ∧
    (∃ bs, exLeaf5.Slice 1 2 = some bs ∧
        contents bs = eagerSlice (contents exLeaf5) 1 2) ∧
    (∃ bp, exLeaf5.Splice 1 2 exEmpty = some bp ∧
        contents bp = eagerSplice (contents exLeaf5) 1 2
          (contents exEmpty)) := by
  obtain ⟨h1, h2, h3⟩ := slice_splice_refine_eager exLeaf5 exEmpty 1 2
    (Built.leaf 10 5 [0, 1, 2, 3, 4] (by decide) (by decide))
    (Built.leaf 10 0 [] (by decide) (by decide))
    (by decide) (by decide) (by decide)
  exact ⟨h1 7 [9, 9, 9], h2, h3⟩

/-- C2 counterexample: `exIns = exLeaf5.Splice 2 0 exEmpty` is an
API-built node whose whole content is the single maximal contiguous run
`[0, 5)` of the one original leaf payload `[0,1,2,3,4]`, yet `ForEach`
invokes the callback twice — the second visit targets the same payload
and begins exactly where the first ends — refuting "exactly once per
maximal contiguous run of original leaf content". -/
theorem forEach_two_visits_one_maximal_run :
    Built exIns ∧
    exIns.ForEach = [⟨.leaf [0, 1, 2, 3, 4], 0, 2⟩,
      ⟨.leaf [0, 1, 2, 3, 4], 2, 3⟩] :=
  ⟨Built.splice 2 0
      (Built.leaf 10 5 [0, 1, 2, 3, 4] (by decide) (by decide))
      (Built.leaf 10 0 [] (by decide) (by decide)) rfl,
    rfl⟩

/-- C2 (corrected): on every API-built node, `ForEach` invokes the
callback once per contiguous leaf segment — not necessarily maximal —
in left-to-right logical order: every visit is a non-empty in-bounds
sub-range of an original leaf payload (never a node), the delivered
lengths sum to the node's `Count`, and the in-order concatenation of the
delivered segments is exactly the node's content (so the calls tile
`[0, Count)` with no overlaps and no gaps). -/
theorem forEach_segments_tile {a : Array α} (ha : Built a) :
    (a.ForEach.map Visit.cnt).sum = a.Count ∧
    (∀ vis ∈ a.ForEach, ∃ p, vis.src = Val.leaf p ∧ 0 ≤ vis.off ∧
        1 ≤ vis.cnt ∧ vis.off + vis.cnt ≤ (p.length : Int) ∧
        (vis.seg.length : Int) = vis.cnt) ∧
    segsOf a.ForEach = denoteA a := by
  have hwa := Built_WFA ha
  have hgood := ForEach_good hwa
  have hsum := segsOf_length hgood
  have hcd : segsOf a.ForEach = denoteA a := contents_eq_denote hwa
  have hlen := denoteA_len a hwa
  refine ⟨?_, ?_, hcd⟩
  · rw [hcd] at hsum
    omega
  · intro vis hm
    obtain ⟨p, h1, h2, h3, h4⟩ := hgood vis hm
    exact ⟨p, h1, h2, h3, h4, good_seg_len ⟨p, h1, h2, h3, h4⟩⟩

/-- C2 (corrected) witness: instantiated at the leaf `[0,1,2,3,4]` and
its single visit. -/
theorem forEach_segments_tile_witness :
    (exLeaf5.ForEach.map Visit.cnt).sum = exLeaf5.Count ∧
    (∃ p, (⟨Val.leaf [0, 1, 2, 3, 4], 0, 5⟩ : Visit Nat).src = Val.leaf p ∧
        0 ≤ (⟨Val.leaf [0, 1, 2, 3, 4], 0, 5⟩ : Visit Nat).off ∧
        1 ≤ (⟨Val.leaf [0, 1, 2, 3, 4], 0, 5⟩ : Visit Nat).cnt ∧
        (⟨Val.leaf [0, 1, 2, 3, 4], 0, 5⟩ : Visit Nat).off +
          (⟨Val.leaf [0, 1, 2, 3, 4], 0, 5⟩ : Visit Nat).cnt ≤
          (p.length : Int) ∧
        ((⟨Val.leaf [0, 1, 2, 3, 4], 0, 5⟩ : Visit Nat).seg.length : Int) =
          (⟨Val.leaf [0, 1, 2, 3, 4], 0, 5⟩ : Visit Nat).cnt) ∧
    segsOf exLeaf5.ForEach = denoteA exLeaf5 := by
  obtain ⟨h1, h2, h3⟩ := forEach_segments_tile
    (Built.leaf 10 5 [0, 1, 2, 3, 4] (by decide) (by decide))
  refine ⟨h1, h2 ⟨Val.leaf [0, 1, 2, 3, 4], 0, 5⟩ ?_, h3⟩
  simp [show (Array.mk 10 5 (Val.leaf [0, 1, 2, 3, 4]) 0 0 Repl.none :
    Array Nat).ForEach = [(⟨Val.leaf [0, 1, 2, 3, 4], 0, 5⟩ : Visit Nat)]
    from rfl]

/-- C3: `Slice` and `Splice` fail (the Go panic, modelled as `none`)
exactly when `offset < 0`, `count < 0`, or `offset + count > a.Count`;
in particular every in-bounds call succeeds.  The failure happens in the
guard before any node is constructed, and the operations are pure, so on
failure no node is produced and no existing node is altered. -/
theorem slice_splice_bounds_iff (a r : Array α) (offset count : Int) :
    (a.Slice offset count = none ↔
      (offset < 0 ∨ count < 0 ∨ offset + count > a.Count)) ∧
    (a.Splice offset count r = none ↔
      (offset < 0 ∨ count < 0 ∨ offset + count > a.Count)) :=
  ⟨Slice_none_iff a offset count, Splice_none_iff a offset count r⟩

/-- C4: identity short-circuits — `Slice(0, Count)` returns the operand
node itself and `Splice(0, Count, r)` returns `r` itself, with no new
wrapping node (hence trivially traversal-equivalent). -/
theorem slice_splice_identity (a r : Array α) (h : 0 ≤ a.Count) :
    a.Slice 0 a.Count = some a ∧ a.Splice 0 a.Count r = some r := by
  constructor
  · rw [Array.Slice, if_neg (by omega), if_pos ⟨rfl, rfl⟩]
  · rw [Array.Splice, if_neg (by omega), if_pos ⟨rfl, rfl⟩]

/-- C4 witness. -/
theorem slice_splice_identity_witness :
    exLeaf5.Slice 0 exLeaf5.Count = some exLeaf5 ∧
    exLeaf5.Splice 0 exLeaf5.Count exEmpty = some exEmpty :=
  slice_splice_identity exLeaf5 exEmpty (by decide)

/-- C5: for an in-bounds, non-identity, non-empty window, `Slice` on a
node that is not a splice-view (a leaf or a slice-view) collapses: the
result is a slice-view directly over that node's own `value`, with the
new offset the node's existing offset plus the requested offset and the
`Limit` unchanged; on a splice-view, `Slice` instead wraps the entire
node as the new `value` and decrements `Limit` by exactly one. -/
theorem slice_structure (a : Array α) (o c : Int) (h0 : 0 ≤ o)
    (h1 : 0 ≤ c) (h2 : o + c ≤ a.Count) (hni : ¬(o = 0 ∧ c = a.Count))
    (hne : c ≠ 0) :
    (¬isSpliceView a →
      a.Slice o c = some (.mk a.Limit c a.value (a.offset + o) 0 .none)) ∧
    (isSpliceView a →
      a.Slice o c = some (.mk (a.Limit - 1) c (.node a) o 0 .none)) := by
  constructor
  · intro hv
    simp only [isSpliceView] at hv
    have hnone : a.replacement = Repl.none := not_not.mp hv
    cases hs : a.Slice o c with
    | none =>
        rw [Slice_none_iff] at hs
        omega
    | some b =>
        obtain ⟨_, hcase⟩ := Slice_eq hs
        rcases hcase with ⟨ho, hc, rfl⟩ | ⟨_, hz, rfl⟩ | ⟨_, _, _, rfl⟩ |
          ⟨_, _, ⟨r0, hsome⟩, rfl⟩
        · exact absurd ⟨ho, hc⟩ hni
        · exact absurd hz hne
        · rfl
        · rw [hsome] at hnone
          simp at hnone
  · intro hv
    simp only [isSpliceView] at hv
    cases hs : a.Slice o c with
    | none =>
        rw [Slice_none_iff] at hs
        omega
    | some b =>
        obtain ⟨_, hcase⟩ := Slice_eq hs
        rcases hcase with ⟨ho, hc, rfl⟩ | ⟨_, hz, rfl⟩ | ⟨_, _, hnone, rfl⟩ |
          ⟨_, _, _, rfl⟩
        · exact absurd ⟨ho, hc⟩ hni
        · exact absurd hz hne
        · exact absurd hnone hv
        · rfl

/-- C5 witness: the collapse on the plain leaf `exLeaf5` and the wrap on
the splice-view `exIns`. -/
theorem slice_structure_witness :
    exLeaf5.Slice 1 2 = some (.mk exLeaf5.Limit 2 exLeaf5.value
      (exLeaf5.offset + 1) 0 .none) ∧
    exIns.Slice 1 2 = some (.mk (exIns.Limit - 1) 2 (.node exIns) 1 0
      .none) := by
  constructor
  · exact (slice_structure exLeaf5 1 2 (by decide) (by decide) (by decide)
      (by decide) (by decide)).1
      (by simp [isSpliceView, exLeaf5, Array.replacement])
  · exact (slice_structure exIns 1 2 (by decide) (by decide) (by decide)
      (by decide) (by decide)).2
      (by simp [isSpliceView, exIns, Array.replacement])

/-- C6: for an in-bounds, non-identity `Splice`: when the base node is a
slice-view or a splice-view (not a bare leaf), the new node stores the
whole base node as its `value` and its `Limit` is the base's `Limit`
minus one; otherwise the new node's `value` is the base node's own
payload directly and its `Limit` is unchanged.  In both cases the new
`Count` is `Count + (replacement.Count − count)` and the arguments are
stored in `offset`, `rcount`, `replacement`. -/
theorem splice_structure (a r : Array α) (o c : Int) (h0 : 0 ≤ o)
    (h1 : 0 ≤ c) (h2 : o + c ≤ a.Count) (hni : ¬(o = 0 ∧ c = a.Count)) :
    ((isSliceView a ∨ isSpliceView a) →
      a.Splice o c r = some (.mk (a.Limit - 1) (a.Count + (r.Count - c))
        (.node a) o c (.some r))) ∧
    (¬(isSliceView a ∨ isSpliceView a) →
      a.Splice o c r = some (.mk a.Limit (a.Count + (r.Count - c))
        a.value o c (.some r))) := by
  constructor
  · intro hv
    have hcond := (view_condition a).mp hv
    cases hp : a.Splice o c r with
    | none =>
        rw [Splice_none_iff] at hp
        omega
    | some b =>
        obtain ⟨_, hcase⟩ := Splice_eq hp
        rcases hcase with ⟨ho, hc, rfl⟩ | ⟨_, _, rfl⟩ | ⟨_, hoff, hnone, rfl⟩
        · exact absurd ⟨ho, hc⟩ hni
        · rfl
        · rcases hcond with hx | hx
          · exact absurd hoff hx
          · rw [hnone] at hx
            simp [Repl.isSome] at hx
  · intro hv
    cases hp : a.Splice o c r with
    | none =>
        rw [Splice_none_iff] at hp
        omega
    | some b =>
        obtain ⟨_, hcase⟩ := Splice_eq hp
        rcases hcase with ⟨ho, hc, rfl⟩ | ⟨_, hw, rfl⟩ | ⟨_, _, _, rfl⟩
        · exact absurd ⟨ho, hc⟩ hni
        · exact absurd ((view_condition a).mpr hw) hv
        · rfl

/-- C6 witness: the wrap on the slice-view `exSlice` and the direct
storage on the bare leaf `exLeaf5`. -/
theorem splice_structure_witness :
    exSlice.Splice 0 1 exEmpty = some (.mk (exSlice.Limit - 1)
      (exSlice.Count + (exEmpty.Count - 1)) (.node exSlice) 0 1
      (.some exEmpty)) ∧
    exLeaf5.Splice 1 2 exEmpty = some (.mk exLeaf5.Limit
      (exLeaf5.Count + (exEmpty.Count - 2)) exLeaf5.value 1 2
      (.some exEmpty)) := by
  constructor
  · exact (splice_structure exSlice exEmpty 0 1 (by decide) (by decide)
      (by decide) (by decide)).1
      (Or.inl (by simp [isSliceView, exSlice, Array.offset,
        Array.replacement]))
  · exact (splice_structure exLeaf5 exEmpty 1 2 (by decide) (by decide)
      (by decide) (by decide)).2
      (by simp [isSliceView, isSpliceView, exLeaf5, Array.offset,
        Array.replacement])

/-- C7: on every API-built node, the `Count` field equals the number of
leaf positions a full `ForEach` traversal visits (the sum of the lengths
passed to the callback); `Count` is never negative; a slice result's
`Count` equals the requested slice length; and a splice result's `Count`
equals the base's count plus the replacement's count minus the replaced
range's length. -/
theorem count_field_spec {a : Array α} (ha : Built a) :
    (a.ForEach.map Visit.cnt).sum = a.Count ∧ 0 ≤ a.Count ∧
    (∀ o c b, a.Slice o c = some b → b.Count = c) ∧
    (∀ o c r b, a.Splice o c r = some b →
      b.Count = a.Count + (r.Count - c)) := by
  have hwa := Built_WFA ha
  refine ⟨?_, Count_nonneg hwa, fun o c b h => Slice_count h,
    fun o c r b h => Splice_count h⟩
  have hsum := segsOf_length (ForEach_good hwa)
  have hcd : segsOf a.ForEach = denoteA a := contents_eq_denote hwa
  have hlen := denoteA_len a hwa
  rw [hcd] at hsum
  omega

/-- C7 witness: instantiated at the splice-view `exIns` and concrete
slice/splice results on it. -/
theorem count_field_spec_witness :
    (exIns.ForEach.map Visit.cnt).sum = exIns.Count ∧ 0 ≤ exIns.Count ∧
    (Array.mk 9 2 (.node exIns) 1 0 .none : Array Nat).Count = 2 ∧
    (Array.mk 9 8 (.node exIns) 1 2 (.some exLeaf5) : Array Nat).Count =
      exIns.Count + (exLeaf5.Count - 2) := by
  obtain ⟨h1, h2, h3, h4⟩ := count_field_spec (show Built exIns from
    Built.splice 2 0
      (Built.leaf 10 5 [0, 1, 2, 3, 4] (by decide) (by decide))
      (Built.leaf 10 0 [] (by decide) (by decide)) rfl)
  exact ⟨h1, h2, h3 1 2 _ rfl, h4 1 2 exLeaf5 _ rfl⟩

/-- C8: `Slice(k, 0)` at any valid position `k` returns an empty node
whose `Count` is `0` and whose `Limit` equals the operand's `Limit`, and
`ForEach` on it — as on any node whose `Count` is `0`, including the
default-constructed zero value — invokes the callback zero times. -/
theorem slice_empty_and_zero_traversal (a b0 : Array α) (k : Int)
    (h0 : 0 ≤ k) (h1 : k ≤ a.Count) (hb0 : b0.Count = 0) :
    (∃ b, a.Slice k 0 = some b ∧ b.Count = 0 ∧ b.Limit = a.Limit ∧
      b.ForEach = []) ∧
    b0.ForEach = [] ∧
    (Array.mk 0 0 .nilV 0 0 .none : Array α).ForEach = [] := by
  have hzf : ∀ x : Array α, x.Count = 0 → x.ForEach = [] := by
    intro x hx
    show forEachA x 0 x.Count = []
    rw [hx]
    exact forEachA_zero x 0
  refine ⟨?_, hzf b0 hb0, hzf _ rfl⟩
  have hsome : ∃ b, a.Slice k 0 = some b := by
    cases hs : a.Slice k 0 with
    | none =>
        rw [Slice_none_iff] at hs
        omega
    | some b => exact ⟨b, rfl⟩
  obtain ⟨b, hs⟩ := hsome
  have hcnt : b.Count = 0 := Slice_count hs
  have hlim : b.Limit = a.Limit := by
    obtain ⟨_, hcase⟩ := Slice_eq hs
    rcases hcase with ⟨ho, hc, hb⟩ | ⟨_, _, hb⟩ | ⟨_, hz, _, _⟩ |
      ⟨_, hz, _, _⟩
    · rw [hb]
    · rw [hb, Limit_mk]
    · exact absurd rfl hz
    · exact absurd rfl hz
  exact ⟨b, hs, hcnt, hlim, hzf b hcnt⟩

/-- C8 witness. -/
theorem slice_empty_and_zero_traversal_witness :
    (∃ b, exLeaf5.Slice 3 0 = some b ∧ b.Count = 0 ∧
      b.Limit = exLeaf5.Limit ∧ b.ForEach = []) ∧
    exEmpty.ForEach = [] ∧
    (Array.mk 0 0 .nilV 0 0 .none : Array Nat).ForEach = [] :=
  slice_empty_and_zero_traversal exLeaf5 exEmpty 3 (by decide) (by decide)
    (by decide)

/-- C9: on every API-built node (whose leaves, by construction, wrap
payloads at least `Count` long), every request `ForEach` issues to a leaf
payload's `Slice` capability is in bounds: every visited window satisfies
`0 ≤ off`, `0 ≤ cnt` and `off + cnt ≤` the payload's length, so traversal
never asks a leaf for an out-of-range segment (and the visited value is
always a leaf payload, never a node or the nil value). -/
theorem forEach_leaf_requests_in_bounds {a : Array α} (ha : Built a) :
    ∀ vis ∈ a.ForEach, ∃ p, vis.src = Val.leaf p ∧ 0 ≤ vis.off ∧
      0 ≤ vis.cnt ∧ vis.off + vis.cnt ≤ (p.length : Int) := by
  intro vis hm
  obtain ⟨p, hsrc, hh1, hh2, hh3⟩ := ForEach_good (Built_WFA ha) vis hm
  exact ⟨p, hsrc, hh1, by omega, hh3⟩

/-- C9 witness: the single visit of the traversal of `exLeaf5`. -/
theorem forEach_leaf_requests_in_bounds_witness :
    ∃ p, (⟨Val.leaf [0, 1, 2, 3, 4], 0, 5⟩ : Visit Nat).src = Val.leaf p ∧
      0 ≤ (⟨Val.leaf [0, 1, 2, 3, 4], 0, 5⟩ : Visit Nat).off ∧
      0 ≤ (⟨Val.leaf [0, 1, 2, 3, 4], 0, 5⟩ : Visit Nat).cnt ∧
      (⟨Val.leaf [0, 1, 2, 3, 4], 0, 5⟩ : Visit Nat).off +
        (⟨Val.leaf [0, 1, 2, 3, 4], 0, 5⟩ : Visit Nat).cnt ≤
        (p.length : Int) :=
  forEach_leaf_requests_in_bounds
    (Built.leaf 10 5 [0, 1, 2, 3, 4] (by decide) (by decide))
    ⟨Val.leaf [0, 1, 2, 3, 4], 0, 5⟩
    (by simp [show (Array.mk 10 5 (Val.leaf [0, 1, 2, 3, 4]) 0 0 Repl.none :
      Array Nat).ForEach = [(⟨Val.leaf [0, 1, 2, 3, 4], 0, 5⟩ : Visit Nat)]
      from rfl])

/-- C10: `ForEach` never invokes the callback with a zero-length segment:
on every API-built node, every call the callback receives has a count of
at least 1, and the delivered segment itself is non-empty (zero-count
windows, including empty zone intersections inside a splice-view, are
filtered out before the callback is reached). -/
theorem forEach_no_empty_visits {a : Array α} (ha : Built a) :
    ∀ vis ∈ a.ForEach, 1 ≤ vis.cnt ∧ 1 ≤ vis.seg.length := by
  intro vis hm
  obtain ⟨p, hsrc, hh1, hh2, hh3⟩ := ForEach_good (Built_WFA ha) vis hm
  have hlen := good_seg_len ⟨p, hsrc, hh1, hh2, hh3⟩
  exact ⟨hh2, by omega⟩

/-- C10 witness: the first visit of the traversal of `exIns`. -/
theorem forEach_no_empty_visits_witness :
    1 ≤ (⟨Val.leaf [0, 1, 2, 3, 4], 0, 2⟩ : Visit Nat).cnt ∧
      1 ≤ (Visit.seg (⟨Val.leaf [0, 1, 2, 3, 4], 0, 2⟩ : Visit Nat)).length :=
  forEach_no_empty_visits
    (show Built exIns from Built.splice 2 0
      (Built.leaf 10 5 [0, 1, 2, 3, 4] (by decide) (by decide))
      (Built.leaf 10 0 [] (by decide) (by decide)) rfl)
    ⟨Val.leaf [0, 1, 2, 3, 4], 0, 2⟩
    (by simp [show exIns.ForEach = [(⟨Val.leaf [0, 1, 2, 3, 4], 0, 2⟩ :
      Visit Nat), (⟨Val.leaf [0, 1, 2, 3, 4], 2, 3⟩ : Visit Nat)] from rfl])

end Lazy
